import Mathlib

/-!
Shallow embedding of the `deck` Go library (card.go, deck.go).

Go `Suit` and `Rank` are integer types (`type Suit int`, `type Rank int`)
with named constants; they are embedded as `Int` with the same constants.
A Go method on `*Deck` that can mutate the receiver is embedded as a
function returning, along with its result, the deck as the method leaves
it; the error value of a `(T, error)` return is an `Option String`
carrying the exact message from `errors.New`, `none` standing for `nil`.
-/

namespace DeckLib

/-- Go `type Suit int`; constants from `card.go`. -/
abbrev Suit := Int

def Spades : Suit := 0
def Hearts : Suit := 1
def Diamonds : Suit := 2
def Clubs : Suit := 3

/-- Go `type Rank int`; constants from `card.go` (`Ace Rank = iota + 1`). -/
abbrev Rank := Int

def Ace : Rank := 1
def Two : Rank := 2
def Three : Rank := 3
def Four : Rank := 4
def Five : Rank := 5
def Six : Rank := 6
def Seven : Rank := 7
def Eight : Rank := 8
def Nine : Rank := 9
def Ten : Rank := 10
def Jack : Rank := 11
def Queen : Rank := 12
def King : Rank := 13

/-- Go `Card` struct: a Suit paired with a Rank (card.go). The zero value
`Card{}` is `⟨0, 0⟩`, i.e. Suit `Spades` with the invalid Rank `0`. -/
structure Card where
  Suit : Int
  Rank : Int
deriving DecidableEq, Repr

/-- Go `NewCard(suit, rank)` (card.go). -/
def NewCard (suit : Suit) (rank : Rank) : Card := ⟨suit, rank⟩

/-- The zero value `Card{}` returned alongside errors in `Deal`/`Peek`. -/
def zeroCard : Card := ⟨0, 0⟩

/-- Go `Rank.Symbol()` (card.go): the switch over the thirteen ranks, with
default `"?"`. -/
def rankSymbol (r : Rank) : String :=
  if r = Ace then "A"
  else if r = Two then "2"
  else if r = Three then "3"
  else if r = Four then "4"
  else if r = Five then "5"
  else if r = Six then "6"
  else if r = Seven then "7"
  else if r = Eight then "8"
  else if r = Nine then "9"
  else if r = Ten then "10"
  else if r = Jack then "J"
  else if r = Queen then "Q"
  else if r = King then "K"
  else "?"

/-- Go `Rank.String()` (card.go), with default `"Unknown"`. -/
def rankString (r : Rank) : String :=
  if r = Ace then "Ace"
  else if r = Two then "Two"
  else if r = Three then "Three"
  else if r = Four then "Four"
  else if r = Five then "Five"
  else if r = Six then "Six"
  else if r = Seven then "Seven"
  else if r = Eight then "Eight"
  else if r = Nine then "Nine"
  else if r = Ten then "Ten"
  else if r = Jack then "Jack"
  else if r = Queen then "Queen"
  else if r = King then "King"
  else "Unknown"

/-- Go `Deck` struct: an ordered sequence of cards (deck.go). -/
structure Deck where
  cards : List Card
deriving DecidableEq, Repr

/-- The suit iteration order of `NewDeck` (deck.go line 17). -/
def allSuits : List Suit := [Spades, Hearts, Diamonds, Clubs]

/-- The rank iteration order of `NewDeck` (deck.go line 18). -/
def allRanks : List Rank :=
  [Ace, Two, Three, Four, Five, Six, Seven, Eight, Nine, Ten, Jack, Queen, King]

/-- Go `NewDeck()` (deck.go): nested loop, suit outer, rank inner. -/
def NewDeck : Deck :=
  ⟨allSuits.flatMap (fun suit => allRanks.map (fun rank => NewCard suit rank))⟩

/-- Go `NewEmptyDeck()` (deck.go). -/
def NewEmptyDeck : Deck := ⟨[]⟩

/-- Go `NewDeckFromCards(cards)` (deck.go): copies the slice. -/
def NewDeckFromCards (cards : List Card) : Deck := ⟨cards⟩

/-- Go `Size()` (deck.go): `len(d.cards)` as a Go `int`. -/
def Size (d : Deck) : Int := d.cards.length

/-- Go `IsEmpty()` (deck.go). -/
def IsEmpty (d : Deck) : Bool := d.cards.length = 0

/-- Go `Cards()` (deck.go): a copy of the card sequence. -/
def Cards (d : Deck) : List Card := d.cards

/-- Swap of two positions of a list, the shallow embedding of the Go
parallel assignment `d.cards[i], d.cards[j] = d.cards[j], d.cards[i]`.
Out-of-range indices never arise in the embedded loops; the fallback
returns the list unchanged. -/
def listSwap (l : List Card) (i j : Nat) : List Card :=
  match l[i]?, l[j]? with
  | some a, some b => (l.set i b).set j a
  | _, _ => l

/-- The Fisher-Yates loop of `Shuffle`/`ShuffleWithSeed` (deck.go lines
61-64 and 70-73), generic in the random source: `intn n r` models
`r.Intn(n)`, returning the drawn value and the advanced generator state.
The `Nat` argument is the loop index `i`; the loop body at index `i ≥ 1`
draws `j := Intn(i+1)` and swaps positions `i` and `j`. -/
def fyLoop {σ : Type} (intn : Nat → σ → Nat × σ) : σ → Nat → List Card → List Card
  | _, 0, cards => cards
  | r, Nat.succ i, cards =>
    let p := intn (i + 2) r
    fyLoop intn p.2 i (listSwap cards (i + 1) p.1)

/-- Modelled from the spec: Go's `math/rand` source (`rand.NewSource(seed)`
with `Intn`) is standard-library code external to this repository; the
spec requires only a deterministic generator seeded by the caller's value
("identical algorithm, driven by a caller-supplied deterministic seed").
It is modelled as a 64-bit linear congruential generator; `rngIntn n s`
returns a value in `[0, n)` and the next state. -/
def rngNext (s : Nat) : Nat :=
  (s * 6364136223846793005 + 1442695040888963407) % (2 ^ 64)

/-- Modelled from the spec: `r.Intn(n)` on the modelled source. -/
def rngIntn (n : Nat) (s : Nat) : Nat × Nat :=
  let s2 := rngNext s
  (s2 % n, s2)

/-- Modelled from the spec: `rand.NewSource(seed)` initial state. -/
def seedState (seed : Int) : Nat := (seed % (2 ^ 64)).toNat

/-- Go `ShuffleWithSeed(seed)` (deck.go lines 68-74): Fisher-Yates driven
by a generator seeded with the caller's seed. -/
def ShuffleWithSeed (d : Deck) (seed : Int) : Deck :=
  ⟨fyLoop rngIntn (seedState seed) (d.cards.length - 1) d.cards⟩

/-- Go `Shuffle()` (deck.go lines 59-65): the same loop, seeded from
`time.Now().UnixNano()`; the wall-clock reading is passed in as the
explicit parameter `now`. -/
def Shuffle (d : Deck) (now : Int) : Deck :=
  ⟨fyLoop rngIntn (seedState now) (d.cards.length - 1) d.cards⟩

/-- Go `Deal()` (deck.go lines 77-85): on the empty deck returns the zero
card and an error, leaving the deck as is; otherwise removes and returns
the card at index 0. -/
def Deal (d : Deck) : (Card × Option String) × Deck :=
  match d.cards with
  | [] => ((zeroCard, some "cannot deal from empty deck"), d)
  | c :: rest => ((c, none), ⟨rest⟩)

/-- Go `DealN(n)` (deck.go lines 88-100): guards `n < 0` and
`n > len(d.cards)`, then removes and returns the first `n` cards. -/
def DealN (d : Deck) (n : Int) : (List Card × Option String) × Deck :=
  if n < 0 then (([], some "cannot deal negative number of cards"), d)
  else if n > d.cards.length then (([], some "not enough cards in deck"), d)
  else ((d.cards.take n.toNat, none), ⟨d.cards.drop n.toNat⟩)

/-- Go `AddCard(card)` (deck.go). -/
def AddCard (d : Deck) (card : Card) : Deck := ⟨d.cards ++ [card]⟩

/-- Go `AddCards(cards)` (deck.go). -/
def AddCards (d : Deck) (cards : List Card) : Deck := ⟨d.cards ++ cards⟩

/-- Go `InsertCard(card, position)` (deck.go lines 113-122): guards the
position, then grows the slice by one, shifts the suffix from `position`
back by one and writes `card` at `position` — net effect, the list with
`card` inserted at index `position`. -/
def InsertCard (d : Deck) (card : Card) (position : Int) : Option String × Deck :=
  if position < 0 ∨ position > d.cards.length then (some "invalid position", d)
  else (none, ⟨d.cards.take position.toNat ++ card :: d.cards.drop position.toNat⟩)

/-- Go `Peek()` (deck.go lines 136-141): the zero card with an error on
the empty deck, otherwise the card at index 0; never mutates. -/
def Peek (d : Deck) : Card × Option String :=
  match d.cards with
  | [] => (zeroCard, some "cannot peek at empty deck")
  | c :: _ => (c, none)

/-- Go `PeekN(n)` (deck.go lines 144-155): same guards as `DealN`, returns
a copy of the first `n` cards; the deck component is the receiver as the
method leaves it (the body never assigns `d.cards`). -/
def PeekN (d : Deck) (n : Int) : (List Card × Option String) × Deck :=
  if n < 0 then (([], some "cannot peek at negative number of cards"), d)
  else if n > d.cards.length then (([], some "not enough cards in deck"), d)
  else ((d.cards.take n.toNat, none), d)

/-- Go `Contains(card)` (deck.go): linear scan comparing Suit and Rank. -/
def Contains (d : Deck) (card : Card) : Bool :=
  d.cards.any (fun c => c.Suit = card.Suit ∧ c.Rank = card.Rank)

/-- One step of the Go map update `counts[key]++`: the map is modelled as
an association list keyed by first occurrence. -/
def mapIncr : List (Int × Nat) → Int → List (Int × Nat)
  | [], k => [(k, 1)]
  | (k2, v) :: rest, k =>
    if k2 = k then (k2, v + 1) :: rest else (k2, v) :: mapIncr rest k

/-- Go `CountBySuit()` (deck.go lines 179-185). -/
def CountBySuit (d : Deck) : List (Int × Nat) :=
  d.cards.foldl (fun counts card => mapIncr counts card.Suit) []

/-- Go `CountByRank()` (deck.go lines 188-194). -/
def CountByRank (d : Deck) : List (Int × Nat) :=
  d.cards.foldl (fun counts card => mapIncr counts card.Rank) []

/-- Sum of the values of a modelled Go map. -/
def sumVals (m : List (Int × Nat)) : Nat := (m.map Prod.snd).sum

/-- Go `Filter(predicate)` (deck.go lines 197-205): the loop appending
each matching card to a fresh slice, wrapped by `NewDeckFromCards`. -/
def Filter (d : Deck) (predicate : Card → Bool) : Deck :=
  NewDeckFromCards
    (d.cards.foldl (fun filtered card =>
      if predicate card then filtered ++ [card] else filtered) [])

/-- The comparison of `Sort` (deck.go lines 215-216):
`card1.Suit > card2.Suit || (card1.Suit == card2.Suit && card1.Rank > card2.Rank)`. -/
def cardGT (c1 c2 : Card) : Bool :=
  c1.Suit > c2.Suit ∨ (c1.Suit = c2.Suit ∧ c1.Rank > c2.Rank)

/-- The non-decreasing order established by `Sort`: the negation of the
swap condition `cardGT`. -/
def CardLE (c1 c2 : Card) : Prop := cardGT c1 c2 = false

instance : DecidablePred (fun p : Card × Card => CardLE p.1 p.2) := by
  intro p; unfold CardLE; infer_instance

instance (c1 c2 : Card) : Decidable (CardLE c1 c2) := by
  unfold CardLE; infer_instance

/-- Go `IsRed()` (card.go): Hearts or Diamonds. -/
def IsRed (c : Card) : Bool := c.Suit = Hearts ∨ c.Suit = Diamonds

/-- Go `IsBlack()` (card.go): Spades or Clubs. -/
def IsBlack (c : Card) : Bool := c.Suit = Spades ∨ c.Suit = Clubs

/-- Go `IsFaceCard()` (card.go): Jack, Queen or King. -/
def IsFaceCard (c : Card) : Bool := c.Rank = Jack ∨ c.Rank = Queen ∨ c.Rank = King

/-- The body of the inner loop of `Sort` (deck.go lines 212-218) at index
`j`: compare positions `j` and `j+1` and swap when out of order. -/
def compSwapAt (l : List Card) (j : Nat) : List Card :=
  match l[j]?, l[j + 1]? with
  | some card1, some card2 =>
    if cardGT card1 card2 then (l.set j card2).set (j + 1) card1 else l
  | _, _ => l

/-- The inner loop of `Sort`: `k` iterations of `compSwapAt` starting at
index `j` (the Go loop runs `j` from 0 while `j < len - i - 1`). -/
def innerFrom : List Card → Nat → Nat → List Card
  | l, _, 0 => l
  | l, j, Nat.succ k => innerFrom (compSwapAt l j) (j + 1) k

/-- The outer loop of `Sort`: `k` iterations with outer index starting at
`i` (the Go loop runs `i` from 0 while `i < len - 1`, the inner loop
doing `len - i - 1` iterations from index 0). -/
def outerFrom : List Card → Nat → Nat → List Card
  | l, _, 0 => l
  | l, i, Nat.succ k => outerFrom (innerFrom l 0 (l.length - i - 1)) (i + 1) k

/-- Go `Sort()` (deck.go lines 208-221): the bubble sort. (`Sort` is a
Lean keyword, hence the name `SortDeck`.) -/
def SortDeck (d : Deck) : Deck :=
  ⟨outerFrom d.cards 0 (d.cards.length - 1)⟩

/-- Structural form of one inner-loop pass limited to `k` comparisons,
used to reason about `innerFrom`. -/
def passK : List Card → Nat → List Card
  | l, 0 => l
  | c1 :: c2 :: rest, Nat.succ k =>
    if cardGT c1 c2 then c2 :: passK (c1 :: rest) k else c1 :: passK (c2 :: rest) k
  | l, Nat.succ _ => l

instance : IsAntisymm Card CardLE :=
  ⟨fun a b h1 h2 => by
    unfold CardLE cardGT at h1 h2
    simp only [decide_eq_false_iff_not] at h1 h2
    obtain ⟨s1, r1⟩ := a
    obtain ⟨s2, r2⟩ := b
    simp only [Card.mk.injEq]
    simp only at h1 h2
    omega⟩

/-! ### Helper lemmas on lists -/

theorem getElem_append_len {α : Type} :
    ∀ (p q : List α) (i : Nat), (p ++ q)[p.length + i]? = q[i]? := by
  intro p
  induction p with
  | nil => intro q i; simp
  | cons c p ih =>
    intro q i
    have h1 : (c :: p).length + i = (p.length + i) + 1 := by
      simp [List.length_cons]; omega
    rw [h1]
    simp only [List.cons_append, List.getElem?_cons_succ]
    exact ih q i

theorem set_append_add {α : Type} :
    ∀ (p q : List α) (i : Nat) (x : α),
      (p ++ q).set (p.length + i) x = p ++ q.set i x := by
  intro p
  induction p with
  | nil => intro q i x; simp
  | cons c p ih =>
    intro q i x
    have h1 : (c :: p).length + i = (p.length + i) + 1 := by
      simp [List.length_cons]; omega
    rw [h1]
    simp only [List.cons_append, List.set_cons_succ]
    rw [ih]

theorem take_append_add {α : Type} :
    ∀ (p q : List α) (i : Nat), (p ++ q).take (p.length + i) = p ++ q.take i := by
  intro p
  induction p with
  | nil => intro q i; simp
  | cons c p ih =>
    intro q i
    have h1 : (c :: p).length + i = (p.length + i) + 1 := by
      simp [List.length_cons]; omega
    rw [h1]
    simp only [List.cons_append, List.take_succ_cons]
    rw [ih]

theorem drop_append_add {α : Type} :
    ∀ (p q : List α) (i : Nat), (p ++ q).drop (p.length + i) = q.drop i := by
  intro p
  induction p with
  | nil => intro q i; simp
  | cons c p ih =>
    intro q i
    have h1 : (c :: p).length + i = (p.length + i) + 1 := by
      simp [List.length_cons]; omega
    rw [h1]
    simp only [List.cons_append, List.drop_succ_cons]
    exact ih q i

/-! ### Permutation lemmas for the swap and the Fisher-Yates loop -/

theorem cons_set_perm {α : Type} :
    ∀ (t : List α) (j : Nat) (a b : α), t[j]? = some b →
      List.Perm (b :: t.set j a) (a :: t) := by
  intro t
  induction t with
  | nil => intro j a b h; simp at h
  | cons c t2 ih =>
    intro j a b h
    cases j with
    | zero =>
      simp at h
      subst h
      simpa using List.Perm.swap a c t2
    | succ j2 =>
      simp only [List.getElem?_cons_succ] at h
      simp only [List.set_cons_succ]
      exact (List.Perm.swap c b (t2.set j2 a)).trans
        ((List.Perm.cons c (ih j2 a b h)).trans (List.Perm.swap a c t2))

theorem set_set_perm {α : Type} :
    ∀ (l : List α) (i j : Nat) (a b : α), l[i]? = some a → l[j]? = some b →
      List.Perm ((l.set i b).set j a) l := by
  intro l
  induction l with
  | nil => intro i j a b h1 h2; simp at h1
  | cons c t ih =>
    intro i j a b h1 h2
    cases i with
    | zero =>
      simp at h1
      subst h1
      cases j with
      | zero =>
        simp at h2
        subst h2
        simp
      | succ j2 =>
        simp only [List.getElem?_cons_succ] at h2
        simp only [List.set_cons_zero, List.set_cons_succ]
        exact cons_set_perm t j2 c b h2
    | succ i2 =>
      simp only [List.getElem?_cons_succ] at h1
      cases j with
      | zero =>
        simp at h2
        subst h2
        simp only [List.set_cons_succ, List.set_cons_zero]
        exact cons_set_perm t i2 c a h1
      | succ j2 =>
        simp only [List.getElem?_cons_succ] at h2
        simp only [List.set_cons_succ]
        exact List.Perm.cons c (ih i2 j2 a b h1 h2)

theorem listSwap_perm (l : List Card) (i j : Nat) : List.Perm (listSwap l i j) l := by
  unfold listSwap
  cases h1 : l[i]? with
  | none => exact List.Perm.refl l
  | some a =>
    cases h2 : l[j]? with
    | none => exact List.Perm.refl l
    | some b => exact set_set_perm l i j a b h1 h2

theorem fyLoop_perm {σ : Type} (intn : Nat → σ → Nat × σ) :
    ∀ (i : Nat) (r : σ) (l : List Card), List.Perm (fyLoop intn r i l) l := by
  intro i
  induction i with
  | zero => intro r l; exact List.Perm.refl l
  | succ i ih =>
    intro r l
    unfold fyLoop
    exact (ih _ _).trans (listSwap_perm l (i + 1) (intn (i + 2) r).1)

/-! ### The order established by `Sort` -/

theorem cardLE_iff (c1 c2 : Card) :
    CardLE c1 c2 ↔ c1.Suit < c2.Suit ∨ (c1.Suit = c2.Suit ∧ c1.Rank ≤ c2.Rank) := by
  unfold CardLE cardGT
  simp only [decide_eq_false_iff_not]
  omega

theorem cardLE_refl (c : Card) : CardLE c c := by
  rw [cardLE_iff]; omega

theorem cardLE_trans {a b c : Card} (h1 : CardLE a b) (h2 : CardLE b c) : CardLE a c := by
  rw [cardLE_iff] at h1 h2 ⊢; omega

theorem cardLE_antisymm {a b : Card} (h1 : CardLE a b) (h2 : CardLE b a) : a = b := by
  rw [cardLE_iff] at h1 h2
  obtain ⟨s1, r1⟩ := a
  obtain ⟨s2, r2⟩ := b
  simp only [Card.mk.injEq]
  simp only at h1 h2
  omega

theorem cardGT_le {a b : Card} (h : cardGT a b = true) : CardLE b a := by
  unfold cardGT at h
  rw [cardLE_iff]
  simp only [decide_eq_true_eq] at h
  omega

/-! ### Claim theorems -/

/-- C1: `ShuffleWithSeed` is deterministic — for every seed `s`, two decks
holding equal card sequences produce identical resulting card sequences;
the embedded `ShuffleWithSeed` is a function of exactly the deck contents
and the seed. -/
theorem shuffleWithSeed_deterministic (s : Int) (d1 d2 : Deck)
    (h : d1.cards = d2.cards) :
    (ShuffleWithSeed d1 s).cards = (ShuffleWithSeed d2 s).cards := by
  unfold ShuffleWithSeed
  rw [h]

/-- Witness for C1: two separately constructed decks with the full 52-card
contents, shuffled with seed 42. -/
theorem shuffleWithSeed_deterministic_witness :
    (NewDeckFromCards (Cards NewDeck)).cards = NewDeck.cards ∧
    (ShuffleWithSeed (NewDeckFromCards (Cards NewDeck)) 42).cards =
      (ShuffleWithSeed NewDeck 42).cards :=
  ⟨rfl, shuffleWithSeed_deterministic 42 (NewDeckFromCards (Cards NewDeck)) NewDeck rfl⟩

/-- C2: every mutating operation is atomic with respect to errors — when
`Deal`, `DealN n` or `InsertCard card position` returns an error, the deck
after the call equals the deck before the call. -/
theorem mutating_error_atomic (d : Deck) (n : Int) (card : Card) (position : Int) :
    ((Deal d).1.2.isSome = true → (Deal d).2 = d) ∧
    ((DealN d n).1.2.isSome = true → (DealN d n).2 = d) ∧
    ((InsertCard d card position).1.isSome = true → (InsertCard d card position).2 = d) := by
  refine ⟨?_, ?_, ?_⟩
  · obtain ⟨cs⟩ := d
    cases cs <;> simp [Deal]
  · unfold DealN
    split
    · intro _; rfl
    · split
      · intro _; rfl
      · simp
  · unfold InsertCard
    split
    · intro _; rfl
    · simp

/-- Witness for C2: each of the three operations at an input where it
errors, leaving the deck unchanged. -/
theorem mutating_error_atomic_witness :
    (Deal NewEmptyDeck).2 = NewEmptyDeck ∧
    (DealN NewEmptyDeck (-1)).2 = NewEmptyDeck ∧
    (InsertCard NewEmptyDeck zeroCard 7).2 = NewEmptyDeck :=
  ⟨(mutating_error_atomic NewEmptyDeck (-1) zeroCard 7).1 (by decide),
   (mutating_error_atomic NewEmptyDeck (-1) zeroCard 7).2.1 (by decide),
   (mutating_error_atomic NewEmptyDeck (-1) zeroCard 7).2.2 (by decide)⟩

/-- C4: on a deck of size `n > 0`, `Deal` succeeds, returns the card at
index 0, and leaves the deck equal to the former sequence with the first
element removed, of size `n - 1`; on the empty deck it fails with the
`EmptyDeck` error, i.e. the message of deck.go line 79. -/
theorem deal_spec (d : Deck) :
    (0 < Size d →
      (Deal d).1.2 = none ∧
      (Deal d).1.1 :: (Deal d).2.cards = d.cards ∧
      d.cards[0]? = some (Deal d).1.1 ∧
      Size (Deal d).2 = Size d - 1) ∧
    (Size d = 0 → Deal d = ((zeroCard, some "cannot deal from empty deck"), d)) := by
  obtain ⟨cs⟩ := d
  cases cs with
  | nil =>
    constructor
    · intro h
      simp [Size] at h
    · intro _
      rfl
  | cons c rest =>
    constructor
    · intro _
      refine ⟨rfl, rfl, by simp [Deal], ?_⟩
      simp [Size, Deal]
    · intro h
      simp [Size] at h
      omega

/-- Witness for C4: `Deal` on the full deck and on the empty deck. -/
theorem deal_spec_witness :
    ((Deal NewDeck).1.2 = none ∧
     (Deal NewDeck).1.1 :: (Deal NewDeck).2.cards = NewDeck.cards ∧
     NewDeck.cards[0]? = some (Deal NewDeck).1.1 ∧
     Size (Deal NewDeck).2 = Size NewDeck - 1) ∧
    Deal NewEmptyDeck = ((zeroCard, some "cannot deal from empty deck"), NewEmptyDeck) :=
  ⟨(deal_spec NewDeck).1 (by decide), (deal_spec NewEmptyDeck).2 (by decide)⟩

/-- C6: shuffling preserves the multiset of cards and the size — for every
random source and state (so in particular for every seed of
`ShuffleWithSeed` and every wall-clock seed of `Shuffle`), the card
sequence after the shuffle is a permutation of the one before. -/
theorem shuffle_preserves_multiset :
    (∀ (σ : Type) (intn : Nat → σ → Nat × σ) (r : σ) (i : Nat) (l : List Card),
      List.Perm (fyLoop intn r i l) l) ∧
    (∀ (d : Deck) (now : Int), List.Perm (Shuffle d now).cards d.cards) ∧
    (∀ (d : Deck) (seed : Int), List.Perm (ShuffleWithSeed d seed).cards d.cards) :=
  ⟨fun _ intn i r l => fyLoop_perm intn r i l,
   fun d _ => fyLoop_perm rngIntn _ _ d.cards,
   fun d _ => fyLoop_perm rngIntn _ _ d.cards⟩

/-- C7: `PeekN n` fails with the `InvalidCount` message when `n < 0`,
fails with the `InsufficientCards` message when `n > Size`, succeeds with
a copy of the first `n` cards otherwise (the empty sequence at `n = 0`),
and in every case leaves the deck's card sequence unchanged. -/
theorem peekN_spec (d : Deck) (n : Int) :
    (PeekN d n).2 = d ∧
    (n < 0 → (PeekN d n).1 = ([], some "cannot peek at negative number of cards")) ∧
    (0 ≤ n → Size d < n → (PeekN d n).1 = ([], some "not enough cards in deck")) ∧
    (0 ≤ n → n ≤ Size d → (PeekN d n).1 = (d.cards.take n.toNat, none)) ∧
    (n = 0 → (PeekN d n).1 = ([], none)) := by
  have h2 : (PeekN d n).2 = d := by
    unfold PeekN
    split
    · rfl
    split
    · rfl
    · rfl
  refine ⟨h2, ?_, ?_, ?_, ?_⟩
  · intro hn
    unfold PeekN
    rw [if_pos hn]
  · intro h0 hlt
    have hgt : n > (d.cards.length : Int) := by
      unfold Size at hlt
      omega
    unfold PeekN
    rw [if_neg (by omega), if_pos hgt]
  · intro h0 hle
    have hng : ¬ n > (d.cards.length : Int) := by
      unfold Size at hle
      omega
    unfold PeekN
    rw [if_neg (by omega), if_neg hng]
  · intro h0
    subst h0
    unfold PeekN
    rw [if_neg (by omega), if_neg (by simp)]
    simp

/-- Witness for C7: `PeekN` on the full deck at counts -1, 53 and 5. -/
theorem peekN_spec_witness :
    (PeekN NewDeck (-1)).2 = NewDeck ∧
    (PeekN NewDeck (-1)).1 = ([], some "cannot peek at negative number of cards") ∧
    (PeekN NewDeck 53).1 = ([], some "not enough cards in deck") ∧
    (PeekN NewDeck 5).1 = (NewDeck.cards.take 5, none) :=
  ⟨(peekN_spec NewDeck (-1)).1,
   (peekN_spec NewDeck (-1)).2.1 (by decide),
   (peekN_spec NewDeck 53).2.2.1 (by decide) (by decide),
   (peekN_spec NewDeck 5).2.2.2.1 (by decide) (by decide)⟩

theorem filter_foldl_eq (p : Card → Bool) :
    ∀ (cs acc : List Card),
      cs.foldl (fun filtered card => if p card then filtered ++ [card] else filtered) acc
        = acc ++ cs.filter p := by
  intro cs
  induction cs with
  | nil => intro acc; simp
  | cons c cs ih =>
    intro acc
    simp only [List.foldl_cons, List.filter_cons]
    cases h : p c
    · simp only [h, if_neg Bool.false_ne_true, Bool.false_eq_true, if_false]
      rw [ih]
    · simp only [h, if_true]
      rw [ih]
      simp

/-- C8: `Filter p` returns a new deck whose sequence is exactly the
subsequence of the receiver's cards satisfying `p` in original relative
order — every card of the result satisfies `p`, the result is a sublist
of the source, and its size is the count of matching cards. The receiver
is passed by value and never written, so the source sequence is
unchanged. -/
theorem filter_spec (d : Deck) (p : Card → Bool) :
    (Filter d p).cards = d.cards.filter p ∧
    (∀ c ∈ (Filter d p).cards, p c = true) ∧
    List.Sublist (Filter d p).cards d.cards ∧
    Size (Filter d p) = (d.cards.countP p : Int) := by
  have he : (Filter d p).cards = d.cards.filter p := by
    unfold Filter NewDeckFromCards
    simpa using filter_foldl_eq p d.cards []
  refine ⟨he, ?_, ?_, ?_⟩
  · intro c hc
    rw [he] at hc
    exact (List.mem_filter.mp hc).2
  · rw [he]
    exact List.filter_sublist _
  · unfold Size
    rw [he, List.countP_eq_length_filter]

/-- Witness for C8: filtering the full deck by `IsRed`. -/
theorem filter_spec_witness :
    (Filter NewDeck IsRed).cards = NewDeck.cards.filter IsRed ∧
    Size (Filter NewDeck IsRed) = (NewDeck.cards.countP IsRed : Int) :=
  ⟨(filter_spec NewDeck IsRed).1, (filter_spec NewDeck IsRed).2.2.2⟩

/-- C9: when `Deal` or `Peek` fails on the empty deck, the card returned
alongside the error is the zero value `Card{}` — Suit `Spades` (0) paired
with Rank 0, which is outside the thirteen valid ranks and displays as
the `"?"` / `"Unknown"` sentinel. -/
theorem deal_peek_zero_value (d : Deck) (h : Size d = 0) :
    (Deal d).1.1 = zeroCard ∧ (Deal d).1.2.isSome = true ∧
    (Peek d).1 = zeroCard ∧ (Peek d).2.isSome = true ∧
    zeroCard.Suit = Spades ∧ zeroCard.Rank ∉ allRanks ∧
    rankSymbol zeroCard.Rank = "?" ∧ rankString zeroCard.Rank = "Unknown" := by
  obtain ⟨cs⟩ := d
  cases cs with
  | nil => exact ⟨rfl, rfl, rfl, rfl, rfl, by decide, rfl, rfl⟩
  | cons c rest =>
    simp [Size] at h
    omega

/-- Witness for C9: `Deal` and `Peek` on the empty deck. -/
theorem deal_peek_zero_value_witness :
    (Deal NewEmptyDeck).1.1 = zeroCard ∧ (Peek NewEmptyDeck).1 = zeroCard :=
  ⟨(deal_peek_zero_value NewEmptyDeck (by decide)).1,
   (deal_peek_zero_value NewEmptyDeck (by decide)).2.2.1⟩

theorem sumVals_mapIncr : ∀ (m : List (Int × Nat)) (k : Int),
    sumVals (mapIncr m k) = sumVals m + 1 := by
  intro m
  induction m with
  | nil => intro k; rfl
  | cons kv rest ih =>
    intro k
    obtain ⟨k2, v⟩ := kv
    simp only [mapIncr]
    split
    · simp [sumVals]
      omega
    · have := ih k
      simp [sumVals] at this ⊢
      omega

theorem mapIncr_pos : ∀ (m : List (Int × Nat)) (k : Int),
    (∀ kv ∈ m, 0 < kv.2) → ∀ kv ∈ mapIncr m k, 0 < kv.2 := by
  intro m
  induction m with
  | nil =>
    intro k _ kv hkv
    simp [mapIncr] at hkv
    subst hkv
    simp
  | cons kv2 rest ih =>
    intro k h kv hkv
    obtain ⟨k2, v⟩ := kv2
    simp only [mapIncr] at hkv
    split at hkv
    · rcases List.mem_cons.mp hkv with h1 | h1
      · subst h1
        omega
      · exact h kv (List.mem_cons_of_mem _ h1)
    · rcases List.mem_cons.mp hkv with h1 | h1
      · subst h1
        exact h (k2, v) (List.mem_cons_self _ _)
      · exact ih k (fun kv2 hm => h kv2 (List.mem_cons_of_mem _ hm)) kv h1

theorem countFold_sum (f : Card → Int) :
    ∀ (cs : List Card) (m : List (Int × Nat)),
      sumVals (cs.foldl (fun counts card => mapIncr counts (f card)) m)
        = sumVals m + cs.length := by
  intro cs
  induction cs with
  | nil => intro m; simp
  | cons c cs ih =>
    intro m
    simp only [List.foldl_cons, List.length_cons]
    rw [ih, sumVals_mapIncr]
    omega

theorem countFold_pos (f : Card → Int) :
    ∀ (cs : List Card) (m : List (Int × Nat)),
      (∀ kv ∈ m, 0 < kv.2) →
      ∀ kv ∈ cs.foldl (fun counts card => mapIncr counts (f card)) m, 0 < kv.2 := by
  intro cs
  induction cs with
  | nil => intro m h; exact h
  | cons c cs ih =>
    intro m h
    simp only [List.foldl_cons]
    exact ih (mapIncr m (f c)) (mapIncr_pos m (f c) h)

/-- C10: the values of `CountBySuit` sum to `Size`, the values of
`CountByRank` sum to `Size`, and every key present in either map has a
strictly positive count. -/
theorem count_maps_spec (d : Deck) :
    (sumVals (CountBySuit d) : Int) = Size d ∧
    (sumVals (CountByRank d) : Int) = Size d ∧
    (∀ kv ∈ CountBySuit d, 0 < kv.2) ∧
    (∀ kv ∈ CountByRank d, 0 < kv.2) := by
  have e1 : CountBySuit d
      = d.cards.foldl (fun counts card => mapIncr counts ((fun c => c.Suit) card)) [] := rfl
  have e2 : CountByRank d
      = d.cards.foldl (fun counts card => mapIncr counts ((fun c => c.Rank) card)) [] := rfl
  refine ⟨?_, ?_, ?_, ?_⟩
  · rw [e1, countFold_sum (fun c => c.Suit) d.cards []]
    unfold Size
    simp [sumVals]
  · rw [e2, countFold_sum (fun c => c.Rank) d.cards []]
    unfold Size
    simp [sumVals]
  · rw [e1]
    exact countFold_pos (fun c => c.Suit) d.cards [] (by simp)
  · rw [e2]
    exact countFold_pos (fun c => c.Rank) d.cards [] (by simp)

/-- Witness for C10: the count maps of the full deck. -/
theorem count_maps_spec_witness :
    (sumVals (CountBySuit NewDeck) : Int) = Size NewDeck ∧
    (sumVals (CountByRank NewDeck) : Int) = Size NewDeck :=
  ⟨(count_maps_spec NewDeck).1, (count_maps_spec NewDeck).2.1⟩

/-! ### The bubble sort of `Sort` (C5) -/

theorem passK_zero (l : List Card) : passK l 0 = l := by
  cases l with
  | nil => rfl
  | cons a t => cases t <;> rfl

theorem passK_nil (k : Nat) : passK [] k = [] := by
  cases k <;> rfl

theorem passK_single (a : Card) (k : Nat) : passK [a] k = [a] := by
  cases k <;> rfl

theorem passK_cons2 (a b : Card) (rest : List Card) (k : Nat) :
    passK (a :: b :: rest) (k + 1) =
      if cardGT a b then b :: passK (a :: rest) k else a :: passK (b :: rest) k := rfl

theorem innerFrom_zero (l : List Card) (j : Nat) : innerFrom l j 0 = l := rfl

theorem innerFrom_succ (l : List Card) (j k : Nat) :
    innerFrom l j (k + 1) = innerFrom (compSwapAt l j) (j + 1) k := rfl

theorem outerFrom_zero (l : List Card) (i : Nat) : outerFrom l i 0 = l := rfl

theorem outerFrom_succ (l : List Card) (i k : Nat) :
    outerFrom l i (k + 1) = outerFrom (innerFrom l 0 (l.length - i - 1)) (i + 1) k := rfl

theorem passK_length : ∀ (k : Nat) (l : List Card), (passK l k).length = l.length := by
  intro k
  induction k with
  | zero => intro l; rw [passK_zero]
  | succ k ih =>
    intro l
    match l with
    | [] => rw [passK_nil]
    | [a] => rw [passK_single]
    | a :: b :: rest =>
      rw [passK_cons2]
      split
      · simp [ih]
      · simp [ih]

theorem passK_perm : ∀ (k : Nat) (l : List Card), List.Perm (passK l k) l := by
  intro k
  induction k with
  | zero => intro l; rw [passK_zero]
  | succ k ih =>
    intro l
    match l with
    | [] => rw [passK_nil]
    | [a] => rw [passK_single]
    | a :: b :: rest =>
      rw [passK_cons2]
      split
      · exact (List.Perm.cons b (ih (a :: rest))).trans (List.Perm.swap a b rest)
      · exact List.Perm.cons a (ih (b :: rest))

theorem passK_max : ∀ (k : Nat) (l : List Card), l.length = k + 1 →
    ∃ t M, passK l k = t ++ [M] ∧ ∀ x ∈ l, CardLE x M := by
  intro k
  induction k with
  | zero =>
    intro l hl
    match l with
    | [a] =>
      refine ⟨[], a, rfl, ?_⟩
      intro x hx
      simp at hx
      subst hx
      exact cardLE_refl x
  | succ k ih =>
    intro l hl
    match l with
    | [] => simp at hl
    | [a] => simp at hl
    | a :: b :: rest =>
      rw [passK_cons2]
      have hlr : rest.length = k := by simp at hl; omega
      by_cases hab : cardGT a b = true
      · rw [if_pos hab]
        obtain ⟨t, M, he, hm⟩ := ih (a :: rest) (by simp; omega)
        refine ⟨b :: t, M, by rw [he]; simp, ?_⟩
        intro x hx
        rcases List.mem_cons.mp hx with rfl | hx2
        · exact hm x (List.mem_cons_self _ _)
        rcases List.mem_cons.mp hx2 with rfl | hx3
        · exact cardLE_trans (cardGT_le hab) (hm a (List.mem_cons_self _ _))
        · exact hm x (List.mem_cons_of_mem _ hx3)
      · rw [if_neg hab]
        have hle : CardLE a b := by
          unfold CardLE
          simpa using hab
        obtain ⟨t, M, he, hm⟩ := ih (b :: rest) (by simp; omega)
        refine ⟨a :: t, M, by rw [he]; simp, ?_⟩
        intro x hx
        rcases List.mem_cons.mp hx with rfl | hx2
        · exact cardLE_trans hle (hm b (List.mem_cons_self _ _))
        rcases List.mem_cons.mp hx2 with rfl | hx3
        · exact hm x (List.mem_cons_self _ _)
        · exact hm x (List.mem_cons_of_mem _ hx3)

theorem passK_front_only : ∀ (k : Nat) (front tail2 : List Card), front.length = k + 1 →
    passK (front ++ tail2) k = passK front k ++ tail2 := by
  intro k
  induction k with
  | zero => intro front tail2 h; rw [passK_zero, passK_zero]
  | succ k ih =>
    intro front tail2 h
    match front with
    | [] => simp at h
    | [a] => simp at h
    | a :: b :: rest =>
      have h1 : (a :: rest).length = k + 1 := by simp at h ⊢; omega
      have h2 : (b :: rest).length = k + 1 := by simp at h ⊢; omega
      show passK (a :: b :: (rest ++ tail2)) (k + 1) = passK (a :: b :: rest) (k + 1) ++ tail2
      rw [passK_cons2, passK_cons2]
      by_cases hab : cardGT a b = true
      · rw [if_pos hab, if_pos hab]
        have hx : a :: (rest ++ tail2) = (a :: rest) ++ tail2 := rfl
        rw [hx, ih (a :: rest) tail2 h1]
        simp
      · rw [if_neg hab, if_neg hab]
        have hx : b :: (rest ++ tail2) = (b :: rest) ++ tail2 := rfl
        rw [hx, ih (b :: rest) tail2 h2]
        simp

theorem compSwapAt_append (P : List Card) (a b : Card) (rest : List Card) :
    compSwapAt (P ++ a :: b :: rest) P.length =
      if cardGT a b then P ++ b :: a :: rest else P ++ a :: b :: rest := by
  have hja : (P ++ a :: b :: rest)[P.length]? = some a := by
    have h := getElem_append_len P (a :: b :: rest) 0
    simpa using h
  have hjb : (P ++ a :: b :: rest)[P.length + 1]? = some b := by
    have h := getElem_append_len P (a :: b :: rest) 1
    simpa using h
  simp only [compSwapAt, hja, hjb]
  by_cases hab : cardGT a b = true
  · rw [if_pos hab, if_pos hab]
    have h0 : (P ++ a :: b :: rest).set P.length b = P ++ b :: b :: rest := by
      simp
    rw [h0]
    have h1 : (P ++ b :: b :: rest).set (P.length + 1) a = P ++ b :: a :: rest := by
      simp
    rw [h1]
  · rw [if_neg hab, if_neg hab]

theorem innerFrom_eq_passK : ∀ (k : Nat) (l : List Card) (j : Nat),
    innerFrom l j k = l.take j ++ passK (l.drop j) k := by
  intro k
  induction k with
  | zero =>
    intro l j
    rw [innerFrom_zero, passK_zero]
    exact (List.take_append_drop j l).symm
  | succ k ih =>
    intro l j
    rw [innerFrom_succ, ih]
    cases hd : l.drop j with
    | nil =>
      have hlen : l.length ≤ j := by
        have h := List.length_drop j l
        rw [hd] at h
        simp at h
        omega
      have h1 : l[j]? = none := List.getElem?_eq_none hlen
      have hcs : compSwapAt l j = l := by
        simp only [compSwapAt, h1]
      rw [hcs, passK_nil]
      rw [List.drop_eq_nil_of_le (show l.length ≤ j + 1 by omega), passK_nil]
      rw [List.take_of_length_le hlen, List.take_of_length_le (show l.length ≤ j + 1 by omega)]
    | cons a t1 =>
      cases t1 with
      | nil =>
        have hlen : l.length = j + 1 := by
          have h := List.length_drop j l
          rw [hd] at h
          simp at h
          omega
        have hja : l[j]? = some a := by
          have h := List.getElem?_drop l j 0
          rw [hd] at h
          simpa using h.symm
        have hjb : l[j + 1]? = none := List.getElem?_eq_none (by omega)
        have hcs : compSwapAt l j = l := by
          simp only [compSwapAt, hja, hjb]
        rw [hcs, passK_single]
        rw [List.drop_eq_nil_of_le (show l.length ≤ j + 1 by omega), passK_nil]
        rw [List.take_of_length_le (show l.length ≤ j + 1 by omega)]
        rw [← hd, List.take_append_drop]
        simp
      | cons b rest =>
        have hjlen : j < l.length := by
          have h := List.length_drop j l
          rw [hd] at h
          simp at h
          omega
        have hP : (l.take j).length = j := by
          rw [List.length_take]
          omega
        obtain ⟨P, hPeq⟩ : ∃ P, P = l.take j := ⟨l.take j, rfl⟩
        have hl : l = P ++ a :: b :: rest := by
          rw [hPeq, ← hd, List.take_append_drop]
        rw [← hPeq] at hP
        subst hP
        subst hl
        rw [compSwapAt_append]
        have htk : (P ++ a :: b :: rest).take P.length = P := by
          simp
        have hdr : (P ++ a :: b :: rest).drop P.length = a :: b :: rest := by
          simp
        simp only [htk, hdr, passK_cons2]
        by_cases hab : cardGT a b = true
        · rw [if_pos hab, if_pos hab]
          have htk1 : (P ++ b :: a :: rest).take (P.length + 1) = P ++ [b] := by
            have h := take_append_add P (b :: a :: rest) 1
            simpa using h
          have hdr1 : (P ++ b :: a :: rest).drop (P.length + 1) = a :: rest := by
            simp
          rw [htk1, hdr1]
          simp
        · rw [if_neg hab, if_neg hab]
          have htk1 : (P ++ a :: b :: rest).take (P.length + 1) = P ++ [a] := by
            have h := take_append_add P (a :: b :: rest) 1
            simpa using h
          have hdr1 : (P ++ a :: b :: rest).drop (P.length + 1) = b :: rest := by
            simp
          rw [htk1, hdr1]
          simp

theorem outerFrom_sorted : ∀ (k : Nat) (front tail2 : List Card),
    front.length = k + 1 →
    List.Sorted CardLE tail2 →
    (∀ x ∈ front, ∀ y ∈ tail2, CardLE x y) →
    List.Sorted CardLE (outerFrom (front ++ tail2) tail2.length k) ∧
    List.Perm (outerFrom (front ++ tail2) tail2.length k) (front ++ tail2) := by
  intro k
  induction k with
  | zero =>
    intro front tail2 h1 h2 h3
    rw [outerFrom_zero]
    match front, h1 with
    | [x], _ =>
      constructor
      · simp only [List.cons_append, List.nil_append]
        exact List.sorted_cons.mpr ⟨fun b hb => h3 x (List.mem_cons_self _ _) b hb, h2⟩
      · exact List.Perm.refl _
  | succ k ih =>
    intro front tail2 h1 h2 h3
    rw [outerFrom_succ]
    have hlen : (front ++ tail2).length - tail2.length - 1 = k + 1 := by
      rw [List.length_append, h1]
      omega
    rw [hlen, innerFrom_eq_passK, List.take_zero, List.drop_zero, List.nil_append]
    rw [passK_front_only (k + 1) front tail2 h1]
    obtain ⟨t, M, he, hmax⟩ := passK_max (k + 1) front h1
    have hperm1 : List.Perm (passK front (k + 1)) front := passK_perm (k + 1) front
    rw [he] at hperm1 ⊢
    have hMfront : M ∈ front := hperm1.mem_iff.mp (by simp)
    have htlen : t.length = k + 1 := by
      have h := passK_length (k + 1) front
      rw [he] at h
      rw [h1] at h
      simp [List.length_append] at h
      omega
    have hassoc : (t ++ [M]) ++ tail2 = t ++ (M :: tail2) := by simp
    rw [hassoc]
    have hidx : tail2.length + 1 = (M :: tail2).length := by simp
    rw [hidx]
    have hsorted2 : List.Sorted CardLE (M :: tail2) :=
      List.sorted_cons.mpr ⟨fun y hy => h3 M hMfront y hy, h2⟩
    have hbound2 : ∀ x ∈ t, ∀ y ∈ M :: tail2, CardLE x y := by
      intro x hx y hy
      have hxfront : x ∈ front := hperm1.mem_iff.mp (by simp [hx])
      rcases List.mem_cons.mp hy with rfl | hy2
      · exact hmax x hxfront
      · exact h3 x hxfront y hy2
    obtain ⟨hs, hp⟩ := ih t (M :: tail2) htlen hsorted2 hbound2
    refine ⟨hs, hp.trans ?_⟩
    rw [← hassoc]
    exact List.Perm.append_right tail2 hperm1

/-- C5: after `Sort` the card sequence is a permutation of the sequence
before the call and is non-decreasing under compare-by-Suit
(Spades < Hearts < Diamonds < Clubs) with ties broken by Rank — both as
`Sorted` (pairwise) and as a `Chain'` scan of adjacent pairs; sorting an
already-sorted deck leaves the sequence unchanged. -/
theorem sortDeck_correct (d : Deck) :
    List.Perm (SortDeck d).cards d.cards ∧
    List.Sorted CardLE (SortDeck d).cards ∧
    List.Chain' CardLE (SortDeck d).cards ∧
    (List.Sorted CardLE d.cards → (SortDeck d).cards = d.cards) := by
  have main : List.Sorted CardLE (SortDeck d).cards ∧
      List.Perm (SortDeck d).cards d.cards := by
    obtain ⟨cs⟩ := d
    cases cs with
    | nil =>
      have h0 : (SortDeck (⟨[]⟩ : Deck)).cards = ([] : List Card) := rfl
      rw [h0]
      exact ⟨List.sorted_nil, List.Perm.refl []⟩
    | cons c rest =>
      have h := outerFrom_sorted rest.length (c :: rest) []
        (by simp) List.sorted_nil (by simp)
      simp only [List.append_nil, List.length_nil] at h
      have he : (SortDeck ⟨c :: rest⟩).cards = outerFrom (c :: rest) 0 rest.length := by
        show outerFrom (c :: rest) 0 ((c :: rest).length - 1) = _
        simp
      rw [he]
      exact ⟨h.1, h.2⟩
  refine ⟨main.2, main.1, main.1.chain', fun hs => List.eq_of_perm_of_sorted main.2 main.1 hs⟩

/-- Witness for C5: sorting the full deck, which is already in the sorted
order, is a permutation and leaves it unchanged. -/
theorem sortDeck_correct_witness :
    List.Perm (SortDeck NewDeck).cards NewDeck.cards ∧
    (SortDeck NewDeck).cards = NewDeck.cards :=
  ⟨(sortDeck_correct NewDeck).1, (sortDeck_correct NewDeck).2.2.2 (by decide)⟩

/-- C3: `NewDeck` produces exactly 52 cards, one per (Suit, Rank) pair of
the four suits and thirteen ranks, strictly increasing under the
suit-major order (so ordered Spades, Hearts, Diamonds, Clubs, ranks
ascending Ace through King within each suit), with 13 cards per suit and
4 per rank. -/
theorem newDeck_spec :
    NewDeck.cards.length = 52 ∧
    (∀ s ∈ allSuits, ∀ r ∈ allRanks, NewDeck.cards.count (NewCard s r) = 1) ∧
    List.Pairwise (fun c1 c2 => cardGT c2 c1 = true) NewDeck.cards ∧
    (∀ s ∈ allSuits, NewDeck.cards.countP (fun c => c.Suit = s) = 13) ∧
    (∀ r ∈ allRanks, NewDeck.cards.countP (fun c => c.Rank = r) = 4) := by
  decide

end DeckLib
